import Mathlib

/-!
Verification of the matching core of bixor-engine
(`internal/matching/order_book.go`).

Prices and sizes are arbitrary-precision decimals (`shopspring/decimal`)
in the source; they are embedded as `ℚ`.  The `CreatedAt` timestamp and
the channel plumbing (contexts, goroutines) are not part of the embedded
state; validation and routing logic is embedded as pure functions.

The side-queue implementation (`queue.go`) of the repository is not part
of the provided sources — only its callers in `order_book.go` are — so
the queue operations below are modelled from the spec (§4.1), as stated
in their doc comments.
-/

namespace Bixor

/-- `Side` from the source: an `int8` with `Buy = 1`, `Sell = 2`.  The zero
value `0` is representable, as in Go. -/
abbrev Side := Int

def Buy : Side := 1

def Sell : Side := 2

/-- `OrderType` from the source is a string type. -/
abbrev OrderType := String

def Market : OrderType := "market"

def Limit : OrderType := "limit"

def FOK : OrderType := "fok"

def IOC : OrderType := "ioc"

def PostOnly : OrderType := "post_only"

def CancelType : OrderType := "cancel"

/-- `Order` from the source (`CreatedAt` omitted: no claim mentions it). -/
structure Order where
  id : String
  marketId : String
  side : Side
  price : ℚ
  size : ℚ
  type : OrderType
  userId : Int
deriving DecidableEq, Repr

/-- `Trade` from the source (`ID` and `CreatedAt` omitted).  Field defaults
are Go's zero values: a Go composite literal leaves unmentioned fields at
their zero value, which the matcher's fill path relies on. -/
structure Trade where
  marketId : String := ""
  takerOrderId : String := ""
  takerOrderSide : Side := 0
  takerOrderType : OrderType := ""
  takerUserId : Int := 0
  makerOrderId : String := ""
  makerUserId : Int := 0
  price : ℚ := 0
  size : ℚ := 0
  isCancel : Bool := false
deriving DecidableEq, Repr

/-- Modelled from the spec: a price level (`priceUnit` in the source's
queue) is a FIFO list of resting orders at one price; the head of `list`
is the first order in time priority.  The cached `totalSize` of the
source is represented by the computed `priceUnit.totalSize` below
(spec invariant I1 equates the cache with the sum). -/
structure priceUnit where
  price : ℚ
  list : List Order
deriving DecidableEq, Repr

/-- Modelled from the spec: `totalSize` = Σ sizes over the level's list. -/
def priceUnit.totalSize (u : priceUnit) : ℚ :=
  (u.list.map Order.size).sum

/-- Modelled from the spec: a side queue is an ordered collection of price
levels, best price first (bids: higher first; asks: lower first).
`isBid` selects the ordering. -/
structure queue where
  isBid : Bool
  depthList : List priceUnit
deriving DecidableEq, Repr

/-- `p` is strictly better than `q` on the given side. -/
def priceBetter (isBid : Bool) (p q : ℚ) : Prop :=
  if isBid then q < p else p < q

instance (b : Bool) (p q : ℚ) : Decidable (priceBetter b p q) := by
  unfold priceBetter; infer_instance

def NewBuyerQueue : queue := ⟨true, []⟩

def NewSellerQueue : queue := ⟨false, []⟩

/-- Modelled from the spec: insert an order into the sorted level list,
creating the level at its sorted position if absent; `front = true` is the
spec's `pushFront` (re-insert at the head of the price level), `front =
false` appends in time priority. -/
def insertLevels (isBid front : Bool) (o : Order) : List priceUnit → List priceUnit
  | [] => [⟨o.price, [o]⟩]
  | u :: rest =>
    if o.price = u.price then
      ⟨u.price, if front then o :: u.list else u.list ++ [o]⟩ :: rest
    else if priceBetter isBid o.price u.price then
      ⟨o.price, [o]⟩ :: u :: rest
    else
      u :: insertLevels isBid front o rest

/-- Modelled from the spec: the source queue's `insertOrder(order, isFront)`. -/
def queue.insertOrder (q : queue) (o : Order) (front : Bool) : queue :=
  ⟨q.isBid, insertLevels q.isBid front o q.depthList⟩

/-- Modelled from the spec: the source queue's `addOrder(order)` is the
spec's `insert` — append at the order's price level in time priority. -/
def queue.addOrder (q : queue) (o : Order) : queue :=
  q.insertOrder o false

/-- Modelled from the spec: `popHead` removes and returns the first order
of the best price level, removing the level if it is emptied. -/
def queue.popHeadOrder : queue → Option (Order × queue)
  | ⟨_, []⟩ => none
  | ⟨b, u :: rest⟩ =>
    match u.list with
    | [] => none
    | [o] => some (o, ⟨b, rest⟩)
    | o :: o₂ :: os => some (o, ⟨b, ⟨u.price, o₂ :: os⟩ :: rest⟩)

/-- All resting orders of the queue, best level first, FIFO within level. -/
def queue.orders (q : queue) : List Order :=
  q.depthList.flatMap priceUnit.list

/-- Number of resting orders (used as recursion fuel for the match loop). -/
def queue.orderCount (q : queue) : Nat :=
  q.orders.length

/-- Modelled from the spec: `lookup(id)` via the id index returns the
resting order with that id, or none. -/
def queue.order (q : queue) (id : String) : Option Order :=
  q.orders.find? (fun o => o.id = id)

/-- Modelled from the spec: remove the resting order with the given id from
the level at the given price, unlinking it from the level's list and
removing the level if it is emptied. -/
def removeLevels (price : ℚ) (id : String) : List priceUnit → List priceUnit
  | [] => []
  | u :: rest =>
    if u.price = price then
      let l := u.list.filter (fun o => o.id ≠ id)
      if l = [] then rest else ⟨u.price, l⟩ :: rest
    else
      u :: removeLevels price id rest

/-- Modelled from the spec: the source queue's `removeOrder(price, id)`. -/
def queue.removeOrder (q : queue) (price : ℚ) (id : String) : queue :=
  ⟨q.isBid, removeLevels price id q.depthList⟩

/-- Sum of resting sizes on the queue. -/
def queue.sizeSum (q : queue) : ℚ :=
  (q.orders.map Order.size).sum

/-- Faults the Go code can exhibit: dereferencing a nil head pointer
(`tOrd.Price` with `tOrd == nil`), and non-termination of the match loop
(the fuel below bounds it; `orderCount + 1` iterations are enough for
every terminating path of the source loop, since every iteration that
continues removes one resting order from the target queue). -/
inductive Fault
  | nilHead
  | fuelOut
deriving DecidableEq, Repr

/-- A fill trade as built on the source's fill path (lines 357-363,
371-377, 422-428, 437-443): only `TakerOrderID`, `MakerOrderID`, `Price`,
`Size` (and the omitted `CreatedAt`) are set; every other field keeps its
Go zero value. -/
def fillTrade (takerId makerId : String) (price size : ℚ) : Trade :=
  { takerOrderId := takerId, makerOrderId := makerId, price := price, size := size }

/-- A terminal `is_cancel` trade as built at the source's cancel sites:
fully populated from the incoming order, with taker and maker both the
incoming order's id, and the given size. -/
def cancelTrade (o : Order) (size : ℚ) : Trade :=
  { marketId := o.marketId, takerOrderId := o.id, takerOrderSide := o.side,
    takerOrderType := o.type, takerUserId := o.userId, makerOrderId := o.id,
    makerUserId := o.userId, price := o.price, size := size, isCancel := true }

/-- Outcome of the FOK phase-1 scan (source lines 224-281): `kill sz`
emits a single terminal `is_cancel` trade of size `sz` (the *current*,
possibly already reduced, `order.Size` at that point); `pass` proceeds to
the matching loop with the original size restored. -/
inductive FokOutcome
  | kill (size : ℚ)
  | pass
deriving DecidableEq, Repr

/-- The FOK phase-1 scan from the source: walk the target queue's levels
from the front; whenever the level crosses and the current size is ≥ the
level's `totalSize`, subtract the level's *head order's* size; stop with
`pass` on exact zero, `kill` on a negative size or on running off the end
(carrying the current, mutated size). -/
def fokScan (o : Order) : ℚ → List priceUnit → Except Fault FokOutcome
  | cur, [] => .ok (.kill cur)
  | cur, u :: rest =>
    match u.list.head? with
    | none => .error .nilHead
    | some tOrd =>
      if o.side = Buy ∧ tOrd.price ≤ o.price ∧ u.totalSize ≤ cur ∨
         o.side = Sell ∧ o.price ≤ tOrd.price ∧ u.totalSize ≤ cur then
        let cur₂ := cur - tOrd.size
        if cur₂ = 0 then .ok .pass
        else if cur₂ < 0 then .ok (.kill cur₂)
        else fokScan o cur₂ rest
      else if cur < 0 then .ok (.kill cur)
      else fokScan o cur rest

/-- The source's matching loop (`handleOrder`, lines 283-387), fuel-bounded.
`myQ` is the incoming order's own side, `tq` the opposite side, `acc` the
trades emitted so far.  The branch structure follows the Go control flow
exactly, including the fall-through past the type `switch` for order
types other than Limit/PostOnly/IOC (a nil head then faults, and a
non-crossing head is filled after having been pushed back). -/
def matchLoop : Nat → Order → queue → queue → List Trade → Except Fault (List Trade × queue × queue)
  | 0, _, _, _, _ => .error .fuelOut
  | fuel+1, o, myQ, tq, acc =>
    match tq.popHeadOrder with
    | none =>
      if o.type = Limit ∨ o.type = PostOnly then
        .ok (acc, myQ.insertOrder o false, tq)
      else if o.type = IOC then
        .ok (acc ++ [cancelTrade o o.size], myQ, tq)
      else
        .error .nilHead
    | some (tOrd, tqp) =>
      if o.side = Buy ∧ o.price < tOrd.price ∨ o.side = Sell ∧ tOrd.price < o.price then
        let tq₂ := tqp.insertOrder tOrd true
        if o.type = Limit ∨ o.type = PostOnly then
          .ok (acc, myQ.insertOrder o false, tq₂)
        else if o.type = IOC then
          .ok (acc ++ [cancelTrade o o.size], myQ, tq₂)
        else if o.type = PostOnly then
          .ok (acc ++ [cancelTrade o o.size], myQ, tq₂.addOrder tOrd)
        else if tOrd.size ≤ o.size then
          let acc₂ := acc ++ [fillTrade o.id tOrd.id tOrd.price tOrd.size]
          if o.size - tOrd.size = 0 then .ok (acc₂, myQ, tq₂)
          else matchLoop fuel {o with size := o.size - tOrd.size} myQ tq₂ acc₂
        else
          .ok (acc ++ [fillTrade o.id tOrd.id tOrd.price o.size], myQ,
               tq₂.insertOrder {tOrd with size := tOrd.size - o.size} true)
      else
        if o.type = PostOnly then
          .ok (acc ++ [cancelTrade o o.size], myQ, tqp.addOrder tOrd)
        else if tOrd.size ≤ o.size then
          let acc₂ := acc ++ [fillTrade o.id tOrd.id tOrd.price tOrd.size]
          if o.size - tOrd.size = 0 then .ok (acc₂, myQ, tqp)
          else matchLoop fuel {o with size := o.size - tOrd.size} myQ tqp acc₂
        else
          .ok (acc ++ [fillTrade o.id tOrd.id tOrd.price o.size], myQ,
               tqp.insertOrder {tOrd with size := tOrd.size - o.size} true)

/-- The source's `handleOrder` on explicit own/opposite queues: the FOK
phase-1 scan, then the matching loop. -/
def handleOrderOn (o : Order) (myQ tq : queue) : Except Fault (List Trade × queue × queue) :=
  if o.type = FOK then
    match fokScan o o.size tq.depthList with
    | .error f => .error f
    | .ok (.kill sz) => .ok ([cancelTrade o sz], myQ, tq)
    | .ok .pass => matchLoop (tq.orderCount + 1) o myQ tq []
  else
    matchLoop (tq.orderCount + 1) o myQ tq []

/-- The source's `handleMarketOrder` loop (lines 397-451), fuel-bounded.
The Market order's `size` is a quote-asset amount. -/
def marketLoop : Nat → Order → queue → List Trade → Except Fault (List Trade × queue)
  | 0, _, _, _ => .error .fuelOut
  | fuel+1, o, tq, acc =>
    match tq.popHeadOrder with
    | none => .ok (acc ++ [cancelTrade o o.size], tq)
    | some (tOrd, tqp) =>
      let amount := tOrd.price * tOrd.size
      if amount ≤ o.size then
        let acc₂ := acc ++ [fillTrade o.id tOrd.id tOrd.price tOrd.size]
        if o.size - amount = 0 then .ok (acc₂, tqp)
        else marketLoop fuel {o with size := o.size - amount} tqp acc₂
      else
        let tSize := o.size / tOrd.price
        .ok (acc ++ [fillTrade o.id tOrd.id tOrd.price tSize],
             tqp.insertOrder {tOrd with size := tOrd.size - tSize} true)

/-- The order book: a bid queue and an ask queue (channels and the
publisher handle are not part of the embedded state). -/
structure OrderBook where
  bidQueue : queue
  askQueue : queue
deriving DecidableEq, Repr

def emptyBook : OrderBook := ⟨NewBuyerQueue, NewSellerQueue⟩

/-- The source's `OrderBook.handleOrder`: Buy matches against the ask
queue and rests on the bid queue; any other side value matches against
the bid queue (Go's `else` branch). -/
def OrderBook.handleOrder (bk : OrderBook) (o : Order) : Except Fault (List Trade × OrderBook) :=
  if o.side = Buy then
    (handleOrderOn o bk.bidQueue bk.askQueue).map fun r => (r.1, ⟨r.2.1, r.2.2⟩)
  else
    (handleOrderOn o bk.askQueue bk.bidQueue).map fun r => (r.1, ⟨r.2.2, r.2.1⟩)

/-- The source's `OrderBook.handleMarketOrder`: the target queue is the
ask queue for Buy, otherwise the bid queue; the own side is untouched. -/
def OrderBook.handleMarketOrder (bk : OrderBook) (o : Order) : Except Fault (List Trade × OrderBook) :=
  if o.side = Buy then
    (marketLoop (bk.askQueue.orderCount + 1) o bk.askQueue []).map fun r => (r.1, ⟨bk.bidQueue, r.2⟩)
  else
    (marketLoop (bk.bidQueue.orderCount + 1) o bk.bidQueue []).map fun r => (r.1, ⟨r.2, bk.askQueue⟩)

/-- The source's `OrderBook.addOrder` dispatch (lines 175-188): the
Limit/FOK/IOC/PostOnly/Cancel order types all go to `handleOrder`,
Market goes to `handleMarketOrder`, anything else does nothing. -/
def OrderBook.addOrder (bk : OrderBook) (o : Order) : Except Fault (List Trade × OrderBook) :=
  if o.type = Limit ∨ o.type = FOK ∨ o.type = IOC ∨ o.type = PostOnly ∨ o.type = CancelType then
    bk.handleOrder o
  else if o.type = Market then
    bk.handleMarketOrder o
  else
    .ok ([], bk)

/-- The source's `OrderBook.cancelOrder` (lines 190-202): look the id up
on the ask side first, then the bid side; remove on hit; silent no-op on
miss.  No trade event is produced. -/
def OrderBook.cancelOrder (bk : OrderBook) (id : String) : OrderBook :=
  match bk.askQueue.order id with
  | some o => { bk with askQueue := bk.askQueue.removeOrder o.price id }
  | none =>
    match bk.bidQueue.order id with
    | some o => { bk with bidQueue := bk.bidQueue.removeOrder o.price id }
    | none => bk

/-- Result of submitting a command to the book's channels.  The `Timeout`
path (a full channel past the caller's deadline) is concurrency and is
not embedded; what is embedded is which calls validate, which enqueue,
and which return success without enqueuing. -/
inductive SubmitResult
  | invalidParam
  | enqueued
  | okNoEnqueue
deriving DecidableEq, Repr

/-- The source's `OrderBook.AddOrder` precondition check (lines 98-109):
`ErrInvalidParam` iff the order's type or id is the empty string;
otherwise the order is placed on the order channel. -/
def OrderBook.AddOrderSubmit (o : Order) : SubmitResult :=
  if o.type.length = 0 ∨ o.id.length = 0 then .invalidParam else .enqueued

/-- The source's `OrderBook.CancelOrder` (lines 111-122): an empty id
returns nil immediately without touching the cancel channel; otherwise
the id is enqueued. -/
def OrderBook.CancelOrderSubmit (id : String) : SubmitResult :=
  if id.length = 0 then .okNoEnqueue else .enqueued

/-- Modelled from the spec: the engine router's `add_order` (§6) — its
source file is not among the provided sources, only `OrderBook.AddOrder`
is.  Per the spec, `InvalidParam` when `order.id` is empty, `order.type`
is empty, or `order.size ≤ 0`; otherwise the order is handed to the
book's submission path. -/
def Engine.addOrder (o : Order) : SubmitResult :=
  if o.id.length = 0 ∨ o.type.length = 0 ∨ o.size ≤ 0 then .invalidParam
  else OrderBook.AddOrderSubmit o

/-! ## Reference definitions written from the spec's words (for the
refinement claims about the Limit and Market loops). -/

/-- The head order of the queue without removing it. -/
def queue.peekHead (q : queue) : Option Order :=
  match q.depthList with
  | [] => none
  | u :: _ => u.list.head?

/-- Remove the head order, deleting its level if emptied. -/
def queue.dropHead (q : queue) : queue :=
  match q with
  | ⟨b, []⟩ => ⟨b, []⟩
  | ⟨b, u :: rest⟩ =>
    match u.list with
    | [] => ⟨b, u :: rest⟩
    | [_] => ⟨b, rest⟩
    | _ :: o₂ :: os => ⟨b, ⟨u.price, o₂ :: os⟩ :: rest⟩

/-- Replace the head order in place at the front of its price level. -/
def queue.replaceHead (q : queue) (o : Order) : queue :=
  match q with
  | ⟨b, []⟩ => ⟨b, []⟩
  | ⟨b, u :: rest⟩ => ⟨b, ⟨u.price, o :: u.list.tail⟩ :: rest⟩

/-- The spec's crossing test (§4.2): Buy crosses when the order's price
is ≥ the opposite head's price, Sell when it is ≤. -/
def specCrosses (o head : Order) : Prop :=
  o.side = Buy ∧ head.price ≤ o.price ∨ o.side = Sell ∧ o.price ≤ head.price

instance (o head : Order) : Decidable (specCrosses o head) := by
  unfold specCrosses; infer_instance

/-- The Limit semantics written from the claim's words: repeatedly consume
the opposite head while the order's price crosses it; each fill at the
maker's price; a head no larger than the remainder is consumed whole and
removed; a larger head is reduced by the remainder and pushed back to the
front of its level; on an empty opposite side or a non-crossing head the
remainder is rested on the own side at the order's own price. -/
def limitSpecLoop : Nat → Order → queue → queue → Option (List Trade × queue × queue)
  | 0, _, _, _ => none
  | fuel+1, o, myQ, tq =>
    match tq.peekHead with
    | none => some ([], myQ.insertOrder o false, tq)
    | some head =>
      if specCrosses o head then
        if head.size ≤ o.size then
          let t := fillTrade o.id head.id head.price head.size
          if o.size - head.size = 0 then some ([t], myQ, tq.dropHead)
          else
            (limitSpecLoop fuel {o with size := o.size - head.size} myQ tq.dropHead).map
              fun r => (t :: r.1, r.2)
        else
          some ([fillTrade o.id head.id head.price o.size], myQ,
                tq.replaceHead {head with size := head.size - o.size})
      else
        some ([], myQ.insertOrder o false, tq)

def limitMatchSpec (o : Order) (myQ tq : queue) : Option (List Trade × queue × queue) :=
  limitSpecLoop (tq.orderCount + 1) o myQ tq

/-- The Market semantics written from the claim's words: the order's size
is a quote amount; while the opposite side is non-empty, a head whose
`price × size` is within the remaining amount is consumed whole at its
price, else a final trade of `remaining / head.price` is made, the head
reduced by that quantity and pushed back; an exhausted book yields a
terminal cancel event for the remaining quote amount. -/
def marketSpecLoop : Nat → Order → queue → Option (List Trade × queue)
  | 0, _, _ => none
  | fuel+1, o, tq =>
    match tq.peekHead with
    | none => some ([cancelTrade o o.size], tq)
    | some head =>
      let amount := head.price * head.size
      if amount ≤ o.size then
        let t := fillTrade o.id head.id head.price head.size
        if o.size - amount = 0 then some ([t], tq.dropHead)
        else
          (marketSpecLoop fuel {o with size := o.size - amount} tq.dropHead).map
            fun r => (t :: r.1, r.2)
      else
        let tSize := o.size / head.price
        some ([fillTrade o.id head.id head.price tSize],
              tq.replaceHead {head with size := head.size - tSize})

def marketMatchSpec (o : Order) (tq : queue) : Option (List Trade × queue) :=
  marketSpecLoop (tq.orderCount + 1) o tq

/-! ## Validity invariants (spec §3, I1-I5). -/

/-- A well-formed side queue: levels strictly ordered best-first, no empty
level, every order stored at the level of its own price. -/
def ValidQueue (q : queue) : Prop :=
  List.Chain' (fun u v => priceBetter q.isBid u.price v.price) q.depthList ∧
  ∀ u ∈ q.depthList, u.list ≠ [] ∧ ∀ o ∈ u.list, o.price = u.price

/-- A well-formed book: both queues well formed, with the right orderings,
and order ids unique across the whole book (spec I3). -/
def ValidBook (bk : OrderBook) : Prop :=
  ValidQueue bk.bidQueue ∧ ValidQueue bk.askQueue ∧
  bk.bidQueue.isBid = true ∧ bk.askQueue.isBid = false ∧
  ((bk.bidQueue.orders ++ bk.askQueue.orders).map Order.id).Nodup

/-- Sum of the sizes carried by a list of trade events. -/
def tradeSizeSum (ts : List Trade) : ℚ :=
  (ts.map Trade.size).sum

/-! ## Queue lemmas. -/

theorem pop_orderCount {q q' : queue} {o : Order}
    (h : q.popHeadOrder = some (o, q')) : q.orderCount = q'.orderCount + 1 := by
  obtain ⟨b, dl⟩ := q
  cases dl with
  | nil => simp [queue.popHeadOrder] at h
  | cons u rest =>
    obtain ⟨p, l⟩ := u
    cases l with
    | nil => simp [queue.popHeadOrder] at h
    | cons o₁ l' =>
      cases l' with
      | nil =>
        simp only [queue.popHeadOrder, Option.some.injEq, Prod.mk.injEq] at h
        obtain ⟨rfl, rfl⟩ := h
        simp [queue.orderCount, queue.orders]
      | cons o₂ l'' =>
        simp only [queue.popHeadOrder, Option.some.injEq, Prod.mk.injEq] at h
        obtain ⟨rfl, rfl⟩ := h
        simp [queue.orderCount, queue.orders]

theorem peek_eq_pop_fst (q : queue) :
    q.peekHead = (q.popHeadOrder).map Prod.fst := by
  obtain ⟨b, dl⟩ := q
  cases dl with
  | nil => simp [queue.peekHead, queue.popHeadOrder]
  | cons u rest =>
    obtain ⟨p, l⟩ := u
    cases l with
    | nil => simp [queue.peekHead, queue.popHeadOrder]
    | cons o₁ l' =>
      cases l' with
      | nil => simp [queue.peekHead, queue.popHeadOrder]
      | cons o₂ l'' => simp [queue.peekHead, queue.popHeadOrder]

theorem dropHead_of_pop {q q' : queue} {o : Order}
    (h : q.popHeadOrder = some (o, q')) : q.dropHead = q' := by
  obtain ⟨b, dl⟩ := q
  cases dl with
  | nil => simp [queue.popHeadOrder] at h
  | cons u rest =>
    obtain ⟨p, l⟩ := u
    cases l with
    | nil => simp [queue.popHeadOrder] at h
    | cons o₁ l' =>
      cases l' with
      | nil =>
        simp only [queue.popHeadOrder, Option.some.injEq, Prod.mk.injEq] at h
        obtain ⟨rfl, rfl⟩ := h
        simp [queue.dropHead]
      | cons o₂ l'' =>
        simp only [queue.popHeadOrder, Option.some.injEq, Prod.mk.injEq] at h
        obtain ⟨rfl, rfl⟩ := h
        simp [queue.dropHead]

theorem valid_pop {q q' : queue} {o : Order} (hv : ValidQueue q)
    (h : q.popHeadOrder = some (o, q')) : ValidQueue q' := by
  obtain ⟨b, dl⟩ := q
  obtain ⟨hchain, hlev⟩ := hv
  cases dl with
  | nil => simp [queue.popHeadOrder] at h
  | cons u rest =>
    obtain ⟨p, l⟩ := u
    cases l with
    | nil => simp [queue.popHeadOrder] at h
    | cons o₁ l' =>
      cases l' with
      | nil =>
        simp only [queue.popHeadOrder, Option.some.injEq, Prod.mk.injEq] at h
        obtain ⟨rfl, rfl⟩ := h
        exact ⟨hchain.tail, fun u hu => hlev u (List.mem_cons_of_mem _ hu)⟩
      | cons o₂ l'' =>
        simp only [queue.popHeadOrder, Option.some.injEq, Prod.mk.injEq] at h
        obtain ⟨rfl, rfl⟩ := h
        refine ⟨?_, ?_⟩
        · rw [List.chain'_cons'] at hchain ⊢
          exact ⟨hchain.1, hchain.2⟩
        · intro u hu
          rcases List.mem_cons.mp hu with rfl | hu
          · refine ⟨by simp, ?_⟩
            intro o ho
            exact (hlev _ (List.mem_cons_self _ _)).2 o (List.mem_cons_of_mem _ ho)
          · exact hlev u (List.mem_cons_of_mem _ hu)

/-- Pushing the popped head straight back to the front of its level
restores the queue exactly (for well-formed queues). -/
theorem pushback_restores {q q' : queue} {o : Order} (hv : ValidQueue q)
    (h : q.popHeadOrder = some (o, q')) : q'.insertOrder o true = q := by
  obtain ⟨b, dl⟩ := q
  obtain ⟨hchain, hlev⟩ := hv
  cases dl with
  | nil => simp [queue.popHeadOrder] at h
  | cons u rest =>
    obtain ⟨p, l⟩ := u
    cases l with
    | nil => simp [queue.popHeadOrder] at h
    | cons o₁ l' =>
      have hop : o₁.price = p := (hlev _ (List.mem_cons_self _ _)).2 o₁ (List.mem_cons_self _ _)
      cases l' with
      | nil =>
        simp only [queue.popHeadOrder, Option.some.injEq, Prod.mk.injEq] at h
        obtain ⟨rfl, rfl⟩ := h
        cases rest with
        | nil => simp [queue.insertOrder, insertLevels, hop]
        | cons v rest' =>
          have hbet : priceBetter b p v.price := by
            simpa using (List.chain'_cons.mp hchain).1
          have hne : p ≠ v.price := by
            intro hEq
            rw [hEq] at hbet
            unfold priceBetter at hbet
            cases b <;> simp at hbet
          simp [queue.insertOrder, insertLevels, hne, hop, hbet]
      | cons o₂ l'' =>
        simp only [queue.popHeadOrder, Option.some.injEq, Prod.mk.injEq] at h
        obtain ⟨rfl, rfl⟩ := h
        simp [queue.insertOrder, insertLevels, hop]

/-- Pushing an order with the head's price to the front after popping the
head is the same as replacing the head in place (for well-formed queues). -/
theorem pushback_replaces {q q' : queue} {o o' : Order} (hv : ValidQueue q)
    (h : q.popHeadOrder = some (o, q')) (hp : o'.price = o.price) :
    q'.insertOrder o' true = q.replaceHead o' := by
  obtain ⟨b, dl⟩ := q
  obtain ⟨hchain, hlev⟩ := hv
  cases dl with
  | nil => simp [queue.popHeadOrder] at h
  | cons u rest =>
    obtain ⟨p, l⟩ := u
    cases l with
    | nil => simp [queue.popHeadOrder] at h
    | cons o₁ l' =>
      have hop : o₁.price = p := (hlev _ (List.mem_cons_self _ _)).2 o₁ (List.mem_cons_self _ _)
      cases l' with
      | nil =>
        simp only [queue.popHeadOrder, Option.some.injEq, Prod.mk.injEq] at h
        obtain ⟨rfl, rfl⟩ := h
        have hp' : o'.price = p := by rw [hp, hop]
        cases rest with
        | nil => simp [queue.insertOrder, insertLevels, queue.replaceHead, hp']
        | cons v rest' =>
          have hbet : priceBetter b p v.price := by
            simpa using (List.chain'_cons.mp hchain).1
          have hne : p ≠ v.price := by
            intro hEq
            rw [hEq] at hbet
            unfold priceBetter at hbet
            cases b <;> simp at hbet
          simp [queue.insertOrder, insertLevels, queue.replaceHead, hne, hp', hbet]
      | cons o₂ l'' =>
        simp only [queue.popHeadOrder, Option.some.injEq, Prod.mk.injEq] at h
        obtain ⟨rfl, rfl⟩ := h
        have hp' : o'.price = p := by rw [hp, hop]
        simp [queue.insertOrder, insertLevels, queue.replaceHead, hp']

/-- For an order on a definite side, the spec's crossing test is exactly
the complement of the source loop's put-back condition. -/
theorem specCrosses_iff_not (o h : Order) (hside : o.side = Buy ∨ o.side = Sell) :
    specCrosses o h ↔
      ¬(o.side = Buy ∧ o.price < h.price ∨ o.side = Sell ∧ h.price < o.price) := by
  have hbs : (Buy : Side) ≠ Sell := by decide
  rcases hside with hs | hs <;>
    simp [specCrosses, hs, hbs, Ne.symm hbs, not_lt]

/-- The source matching loop, run on a Limit order, agrees step for step
with the loop written from the claim's words. -/
theorem limit_loop_refines (fuel : Nat) : ∀ (o : Order) (myQ tq : queue),
    o.type = Limit → (o.side = Buy ∨ o.side = Sell) → 0 < o.size →
    ValidQueue tq → tq.orderCount < fuel →
    ∃ ts m q, limitSpecLoop fuel o myQ tq = some (ts, m, q) ∧
      ∀ acc, matchLoop fuel o myQ tq acc = Except.ok (acc ++ ts, m, q) := by
  induction fuel with
  | zero => intro o myQ tq _ _ _ _ hf; omega
  | succ fuel ih =>
    intro o myQ tq hty hside hsz hv hf
    cases hpop : tq.popHeadOrder with
    | none =>
      refine ⟨[], myQ.insertOrder o false, tq, ?_, ?_⟩
      · simp [limitSpecLoop, peek_eq_pop_fst, hpop]
      · intro acc
        simp +decide [matchLoop, hpop, hty, Limit, PostOnly]
    | some pr =>
      obtain ⟨tOrd, tqp⟩ := pr
      have hpk : tq.peekHead = some tOrd := by
        simp [peek_eq_pop_fst, hpop]
      by_cases hnc : o.side = Buy ∧ o.price < tOrd.price ∨ o.side = Sell ∧ tOrd.price < o.price
      · have hnspec : ¬ specCrosses o tOrd :=
          fun hsp => ((specCrosses_iff_not o tOrd hside).mp hsp) hnc
        refine ⟨[], myQ.insertOrder o false, tq, ?_, ?_⟩
        · simp [limitSpecLoop, hpk, hnspec]
        · intro acc
          have hres := pushback_restores hv hpop
          simp +decide [matchLoop, hpop, hnc, hty, Limit, PostOnly, hres]
      · have hspec : specCrosses o tOrd := (specCrosses_iff_not o tOrd hside).mpr hnc
        by_cases hsize : tOrd.size ≤ o.size
        · by_cases hrem : o.size - tOrd.size = 0
          · refine ⟨[fillTrade o.id tOrd.id tOrd.price tOrd.size], myQ, tqp, ?_, ?_⟩
            · simp [limitSpecLoop, hpk, hspec, hsize, hrem, dropHead_of_pop hpop]
            · intro acc
              simp +decide [matchLoop, hpop, hnc, hty, Limit, PostOnly, hsize, hrem]
          · have hsz' : 0 < o.size - tOrd.size :=
              lt_of_le_of_ne (by linarith) (Ne.symm hrem)
            have hf' : tqp.orderCount < fuel := by
              have := pop_orderCount hpop
              omega
            obtain ⟨ts, m, q, hspec', hmatch'⟩ :=
              ih {o with size := o.size - tOrd.size} myQ tqp (by simpa using hty)
                (by simpa using hside) (by simpa using hsz') (valid_pop hv hpop) hf'
            refine ⟨fillTrade o.id tOrd.id tOrd.price tOrd.size :: ts, m, q, ?_, ?_⟩
            · rw [← dropHead_of_pop hpop] at hspec'
              simp [limitSpecLoop, hpk, hspec, hsize, hrem, hspec']
            · intro acc
              have hm := hmatch' (acc ++ [fillTrade o.id tOrd.id tOrd.price tOrd.size])
              simp only [hty, Limit, List.append_assoc, List.singleton_append] at hm
              simp +decide [matchLoop, hpop, hnc, hty, Limit, PostOnly, hsize, hrem, hm]
        · refine ⟨[fillTrade o.id tOrd.id tOrd.price o.size], myQ,
            tq.replaceHead {tOrd with size := tOrd.size - o.size}, ?_, ?_⟩
          · simp [limitSpecLoop, hpk, hspec, hsize]
          · intro acc
            have hrep := pushback_replaces hv hpop
              (show ({tOrd with size := tOrd.size - o.size} : Order).price = tOrd.price by simp)
            simp +decide [matchLoop, hpop, hnc, hty, Limit, PostOnly, hsize, hrep]

/-- C1: the source `handleOrder` on a Limit order computes exactly the
loop stated by the claim: repeatedly consume the crossing opposite head
at the maker's price, consuming a head no larger than the remainder whole
and removing it, reducing a larger head by the remainder and pushing it
back to the front of its level, and resting the remainder on the own side
at the order's own price when the opposite side is empty or no longer
crosses. -/
theorem limit_handleOrder_refines_spec (o : Order) (myQ tq : queue)
    (hty : o.type = Limit) (hside : o.side = Buy ∨ o.side = Sell)
    (hsz : 0 < o.size) (hv : ValidQueue tq) :
    ∃ r, handleOrderOn o myQ tq = Except.ok r ∧ limitMatchSpec o myQ tq = some r := by
  obtain ⟨ts, m, q, h1, h2⟩ :=
    limit_loop_refines (tq.orderCount + 1) o myQ tq hty hside hsz hv (by omega)
  refine ⟨(ts, m, q), ?_, ?_⟩
  · have := h2 []
    simp only [List.nil_append] at this
    simp +decide [handleOrderOn, hty, Limit, FOK, this]
  · simp [limitMatchSpec, h1]

/-- The source market loop agrees step for step with the loop written
from the claim's words. -/
theorem market_loop_refines (fuel : Nat) : ∀ (o : Order) (tq : queue),
    0 < o.size → ValidQueue tq → tq.orderCount < fuel →
    ∃ ts q, marketSpecLoop fuel o tq = some (ts, q) ∧
      ∀ acc, marketLoop fuel o tq acc = Except.ok (acc ++ ts, q) := by
  induction fuel with
  | zero => intro o tq _ _ hf; omega
  | succ fuel ih =>
    intro o tq hsz hv hf
    cases hpop : tq.popHeadOrder with
    | none =>
      refine ⟨[cancelTrade o o.size], tq, ?_, ?_⟩
      · simp [marketSpecLoop, peek_eq_pop_fst, hpop]
      · intro acc; simp [marketLoop, hpop]
    | some pr =>
      obtain ⟨tOrd, tqp⟩ := pr
      have hpk : tq.peekHead = some tOrd := by simp [peek_eq_pop_fst, hpop]
      by_cases hamt : tOrd.price * tOrd.size ≤ o.size
      · by_cases hrem : o.size - tOrd.price * tOrd.size = 0
        · refine ⟨[fillTrade o.id tOrd.id tOrd.price tOrd.size], tqp, ?_, ?_⟩
          · simp [marketSpecLoop, hpk, hamt, hrem, dropHead_of_pop hpop]
          · intro acc; simp [marketLoop, hpop, hamt, hrem]
        · have hsz' : 0 < o.size - tOrd.price * tOrd.size :=
            lt_of_le_of_ne (by linarith) (Ne.symm hrem)
          have hf' : tqp.orderCount < fuel := by
            have := pop_orderCount hpop
            omega
          obtain ⟨ts, q, hspec', hmatch'⟩ :=
            ih {o with size := o.size - tOrd.price * tOrd.size} tqp hsz'
              (valid_pop hv hpop) hf'
          refine ⟨fillTrade o.id tOrd.id tOrd.price tOrd.size :: ts, q, ?_, ?_⟩
          · rw [← dropHead_of_pop hpop] at hspec'
            simp [marketSpecLoop, hpk, hamt, hrem, hspec']
          · intro acc
            have hm := hmatch' (acc ++ [fillTrade o.id tOrd.id tOrd.price tOrd.size])
            simp only [List.append_assoc, List.singleton_append] at hm
            simp [marketLoop, hpop, hamt, hrem, hm]
      · refine ⟨[fillTrade o.id tOrd.id tOrd.price (o.size / tOrd.price)],
          tq.replaceHead {tOrd with size := tOrd.size - o.size / tOrd.price}, ?_, ?_⟩
        · simp [marketSpecLoop, hpk, hamt]
        · intro acc
          have hrep := pushback_replaces hv hpop
            (show ({tOrd with size := tOrd.size - o.size / tOrd.price} : Order).price = tOrd.price
              by simp)
          simp [marketLoop, hpop, hamt, hrep]

/-- Asks (100, 1) and (200, 1), as in spec scenario S9. -/
def exAskA : Order := ⟨"a1", "mkt", Sell, 100, 1, Limit, 1⟩

def exAskB : Order := ⟨"a2", "mkt", Sell, 200, 1, Limit, 2⟩

def exMarketAsks : queue := ⟨false, [⟨100, [exAskA]⟩, ⟨200, [exAskB]⟩]⟩

/-- Market Buy with quote amount 150, as in spec scenario S9. -/
def exMarketBuy : Order := ⟨"M1", "mkt", Buy, 0, 150, Market, 3⟩

/-- C3: the source `handleMarketOrder` treats a Market order's size as a
quote amount and computes exactly the loop stated by the claim — a head
whose `price × size` fits in the remainder is consumed whole at its
price, otherwise a final trade of `remaining / head.price` is emitted and
the head reduced and pushed back, with a terminal `is_cancel` event for
the leftover quote amount when the book empties; the own side is never
touched.  In particular, on asks (100, 1), (200, 1) a Market Buy of 150
trades size 1 at 100 and size 0.25 at 200, resting nothing. -/
theorem market_handleMarketOrder_spec :
    (∀ (bk : OrderBook) (o : Order), 0 < o.size →
      ValidQueue bk.bidQueue → ValidQueue bk.askQueue →
      ∃ ts q, marketMatchSpec o (if o.side = Buy then bk.askQueue else bk.bidQueue) = some (ts, q) ∧
        bk.handleMarketOrder o =
          Except.ok (ts, if o.side = Buy then ⟨bk.bidQueue, q⟩ else ⟨q, bk.askQueue⟩)) ∧
    (⟨NewBuyerQueue, exMarketAsks⟩ : OrderBook).handleMarketOrder exMarketBuy =
      Except.ok ([fillTrade "M1" "a1" 100 1, fillTrade "M1" "a2" 200 (1/4)],
        ⟨NewBuyerQueue, ⟨false, [⟨200, [{exAskB with size := 3/4}]⟩]⟩⟩) := by
  constructor
  · intro bk o hsz hvb hva
    by_cases hs : o.side = Buy
    · obtain ⟨ts, q, h1, h2⟩ :=
        market_loop_refines (bk.askQueue.orderCount + 1) o bk.askQueue hsz hva (by omega)
      refine ⟨ts, q, by simp [marketMatchSpec, hs, h1], ?_⟩
      have := h2 []
      simp only [List.nil_append] at this
      simp [OrderBook.handleMarketOrder, Except.map, hs, this]
    · obtain ⟨ts, q, h1, h2⟩ :=
        market_loop_refines (bk.bidQueue.orderCount + 1) o bk.bidQueue hsz hvb (by omega)
      refine ⟨ts, q, by simp [marketMatchSpec, hs, h1], ?_⟩
      have := h2 []
      simp only [List.nil_append] at this
      simp [OrderBook.handleMarketOrder, Except.map, hs, this]
  · norm_num +decide [Except.map, OrderBook.handleMarketOrder, marketLoop, exMarketAsks,
      exMarketBuy, exAskA, exAskB, Buy, Sell, Limit, Market, queue.popHeadOrder,
      queue.orderCount, queue.orders, queue.insertOrder, insertLevels, NewBuyerQueue, fillTrade]

theorem tradeSizeSum_nil : tradeSizeSum [] = 0 := rfl

theorem tradeSizeSum_cons (t : Trade) (ts : List Trade) :
    tradeSizeSum (t :: ts) = t.size + tradeSizeSum ts := by
  simp [tradeSizeSum]

/-- The source loop on an IOC order: the own side is returned untouched,
and the emitted batch either consists of fills summing exactly to the
order's size, or of fills followed by one final `is_cancel` event whose
taker and maker are both the incoming order and whose size is the
unfilled remainder. -/
theorem ioc_loop_shape (fuel : Nat) : ∀ (o : Order) (myQ tq : queue) (acc : List Trade),
    o.type = IOC → 0 < o.size → tq.orderCount < fuel →
    ∃ new tq₂, matchLoop fuel o myQ tq acc = Except.ok (acc ++ new, myQ, tq₂) ∧
      ((∀ t ∈ new, t.isCancel = false) ∧ tradeSizeSum new = o.size ∨
       ∃ fills c, new = fills ++ [c] ∧ (∀ t ∈ fills, t.isCancel = false) ∧
         c.isCancel = true ∧ c.takerOrderId = o.id ∧ c.makerOrderId = o.id ∧
         c.size = o.size - tradeSizeSum fills ∧ tradeSizeSum fills < o.size) := by
  induction fuel with
  | zero => intro o myQ tq acc _ _ hf; omega
  | succ fuel ih =>
    intro o myQ tq acc hty hsz hf
    cases hpop : tq.popHeadOrder with
    | none =>
      refine ⟨[cancelTrade o o.size], tq, ?_, ?_⟩
      · simp +decide [matchLoop, hpop, hty, IOC, Limit, PostOnly]
      · right
        exact ⟨[], cancelTrade o o.size, by simp, by simp, by simp [cancelTrade],
          by simp [cancelTrade], by simp [cancelTrade],
          by simp [cancelTrade, tradeSizeSum_nil], by simpa [tradeSizeSum_nil] using hsz⟩
    | some pr =>
      obtain ⟨tOrd, tqp⟩ := pr
      by_cases hnc : o.side = Buy ∧ o.price < tOrd.price ∨ o.side = Sell ∧ tOrd.price < o.price
      · refine ⟨[cancelTrade o o.size], tqp.insertOrder tOrd true, ?_, ?_⟩
        · simp +decide [matchLoop, hpop, hnc, hty, IOC, Limit, PostOnly]
        · right
          exact ⟨[], cancelTrade o o.size, by simp, by simp, by simp [cancelTrade],
            by simp [cancelTrade], by simp [cancelTrade],
            by simp [cancelTrade, tradeSizeSum_nil], by simpa [tradeSizeSum_nil] using hsz⟩
      · by_cases hsize : tOrd.size ≤ o.size
        · by_cases hrem : o.size - tOrd.size = 0
          · refine ⟨[fillTrade o.id tOrd.id tOrd.price tOrd.size], tqp, ?_, ?_⟩
            · simp +decide [matchLoop, hpop, hnc, hty, IOC, Limit, PostOnly, hsize, hrem]
            · left
              constructor
              · intro t ht
                simp only [List.mem_singleton] at ht
                simp [ht, fillTrade]
              · have : o.size = tOrd.size := by linarith [sub_eq_zero.mp hrem]
                simp [tradeSizeSum_cons, tradeSizeSum_nil, fillTrade, this]
          · have hsz' : 0 < o.size - tOrd.size :=
              lt_of_le_of_ne (by linarith) (Ne.symm hrem)
            have hf' : tqp.orderCount < fuel := by
              have := pop_orderCount hpop
              omega
            obtain ⟨new, tq₂, h1, h2⟩ :=
              ih {o with size := o.size - tOrd.size} myQ tqp
                (acc ++ [fillTrade o.id tOrd.id tOrd.price tOrd.size])
                (by simpa using hty) (by simpa using hsz') hf'
            refine ⟨fillTrade o.id tOrd.id tOrd.price tOrd.size :: new, tq₂, ?_, ?_⟩
            · simp only [hty, IOC, List.append_assoc, List.singleton_append] at h1
              simp +decide [matchLoop, hpop, hnc, hty, IOC, Limit, PostOnly, hsize, hrem, h1]
            · have hs1 : (fillTrade o.id tOrd.id tOrd.price tOrd.size).size = tOrd.size := rfl
              rcases h2 with ⟨hnc', hsum⟩ | ⟨fills, c, hnew, hfnc, hic, htk, hmk, hcs, hlt⟩
              · left
                refine ⟨?_, ?_⟩
                · intro t ht
                  rcases List.mem_cons.mp ht with rfl | ht
                  · simp [fillTrade]
                  · exact hnc' t ht
                · have hsum' : tradeSizeSum new = o.size - tOrd.size := by simpa using hsum
                  rw [tradeSizeSum_cons, hs1, hsum']
                  ring
              · right
                refine ⟨fillTrade o.id tOrd.id tOrd.price tOrd.size :: fills, c,
                  by simp [hnew], ?_, hic, by simpa using htk, by simpa using hmk, ?_, ?_⟩
                · intro t ht
                  rcases List.mem_cons.mp ht with rfl | ht
                  · simp [fillTrade]
                  · exact hfnc t ht
                · have hcs' : c.size = o.size - tOrd.size - tradeSizeSum fills := by
                    simpa using hcs
                  rw [tradeSizeSum_cons, hs1, hcs']
                  ring
                · have hlt' : tradeSizeSum fills < o.size - tOrd.size := by simpa using hlt
                  rw [tradeSizeSum_cons, hs1]
                  linarith
        · refine ⟨[fillTrade o.id tOrd.id tOrd.price o.size],
            tqp.insertOrder {tOrd with size := tOrd.size - o.size} true, ?_, ?_⟩
          · simp +decide [matchLoop, hpop, hnc, hty, IOC, Limit, PostOnly, hsize]
          · left
            refine ⟨?_, ?_⟩
            · intro t ht
              simp only [List.mem_singleton] at ht
              simp [ht, fillTrade]
            · simp [tradeSizeSum_cons, tradeSizeSum_nil, fillTrade]

/-- C4: for an IOC order the unfilled remainder is never rested — the own
side queue comes back unchanged from the matcher — and whenever a
remainder exists the last emitted event is a single trade with
`is_cancel = true` whose taker and maker order ids are both the incoming
order's id and whose size is the unfilled remainder, with no event after
it; when instead the order fills completely, the fills sum exactly to its
size and no `is_cancel` event appears. -/
theorem ioc_never_rests_cancel_last (o : Order) (myQ tq : queue)
    (hty : o.type = IOC) (hsz : 0 < o.size) :
    ∃ ts tq₂, handleOrderOn o myQ tq = Except.ok (ts, myQ, tq₂) ∧
      ((∀ t ∈ ts, t.isCancel = false) ∧ tradeSizeSum ts = o.size ∨
       ∃ fills c, ts = fills ++ [c] ∧ (∀ t ∈ fills, t.isCancel = false) ∧
         c.isCancel = true ∧ c.takerOrderId = o.id ∧ c.makerOrderId = o.id ∧
         c.size = o.size - tradeSizeSum fills ∧ tradeSizeSum fills < o.size) := by
  obtain ⟨new, tq₂, h1, h2⟩ :=
    ioc_loop_shape (tq.orderCount + 1) o myQ tq [] hty hsz (by omega)
  refine ⟨new, tq₂, ?_, h2⟩
  have h1' : matchLoop (tq.orderCount + 1) o myQ tq [] = Except.ok (new, myQ, tq₂) := by
    simpa using h1
  simp +decide [handleOrderOn, hty, IOC, FOK, h1']

/-- IOC Buy at 100, size 1 (spec scenario S4). -/
def exIocBuy : Order := ⟨"I1", "mkt", Buy, 100, 1, IOC, 4⟩

/-- Witness for C4: the IOC theorem applied on an empty book (S4). -/
theorem ioc_never_rests_cancel_last_witness :
    ∃ ts tq₂, handleOrderOn exIocBuy NewBuyerQueue NewSellerQueue =
        Except.ok (ts, NewBuyerQueue, tq₂) ∧
      ((∀ t ∈ ts, t.isCancel = false) ∧ tradeSizeSum ts = exIocBuy.size ∨
       ∃ fills c, ts = fills ++ [c] ∧ (∀ t ∈ fills, t.isCancel = false) ∧
         c.isCancel = true ∧ c.takerOrderId = exIocBuy.id ∧ c.makerOrderId = exIocBuy.id ∧
         c.size = exIocBuy.size - tradeSizeSum fills ∧ tradeSizeSum fills < exIocBuy.size) :=
  ioc_never_rests_cancel_last exIocBuy NewBuyerQueue NewSellerQueue rfl
    (by norm_num [exIocBuy])

/-- Sell resting at 100, size 2 (spec scenario S3). -/
def exRestingSell : Order := ⟨"S1", "mkt", Sell, 100, 2, Limit, 1⟩

def exS3Asks : queue := ⟨false, [⟨100, [exRestingSell]⟩]⟩

/-- Limit Buy at 100, size 5 (spec scenario S3). -/
def exLimitBuy : Order := ⟨"B1", "mkt", Buy, 100, 5, Limit, 2⟩

theorem validQueue_exS3Asks : ValidQueue exS3Asks := by
  constructor
  · simp [exS3Asks]
  · intro u hu
    simp only [exS3Asks, List.mem_singleton] at hu
    subst hu
    refine ⟨by simp, ?_⟩
    intro o ho
    simp only [List.mem_singleton] at ho
    subst ho
    norm_num [exRestingSell]

/-- Witness for C1: the Limit refinement applied at spec scenario S3. -/
theorem limit_handleOrder_refines_spec_witness :
    ∃ r, handleOrderOn exLimitBuy NewBuyerQueue exS3Asks = Except.ok r ∧
      limitMatchSpec exLimitBuy NewBuyerQueue exS3Asks = some r :=
  limit_handleOrder_refines_spec exLimitBuy NewBuyerQueue exS3Asks rfl (Or.inl rfl)
    (by norm_num [exLimitBuy]) validQueue_exS3Asks

theorem validQueue_buyer : ValidQueue NewBuyerQueue := by
  constructor <;> simp [NewBuyerQueue]

theorem validQueue_exMarketAsks : ValidQueue exMarketAsks := by
  constructor
  · norm_num [exMarketAsks, List.chain'_cons, priceBetter]
  · intro u hu
    simp only [exMarketAsks, List.mem_cons, List.mem_singleton] at hu
    rcases hu with rfl | rfl | h
    · refine ⟨by simp, ?_⟩
      intro o ho
      simp only [List.mem_singleton] at ho
      subst ho
      norm_num [exAskA]
    · refine ⟨by simp, ?_⟩
      intro o ho
      simp only [List.mem_singleton] at ho
      subst ho
      norm_num [exAskB]
    · cases h

/-- Witness for C3: the Market refinement applied at spec scenario S9. -/
theorem market_handleMarketOrder_spec_witness :
    ∃ ts q, marketMatchSpec exMarketBuy
        (if exMarketBuy.side = Buy then exMarketAsks else NewBuyerQueue) = some (ts, q) ∧
      (⟨NewBuyerQueue, exMarketAsks⟩ : OrderBook).handleMarketOrder exMarketBuy =
        Except.ok (ts, if exMarketBuy.side = Buy then ⟨NewBuyerQueue, q⟩ else ⟨q, exMarketAsks⟩) :=
  market_handleMarketOrder_spec.1 ⟨NewBuyerQueue, exMarketAsks⟩ exMarketBuy
    (by norm_num [exMarketBuy]) validQueue_buyer validQueue_exMarketAsks

theorem priceBetter_trans {b : Bool} {p q r : ℚ}
    (h1 : priceBetter b p q) (h2 : priceBetter b q r) : priceBetter b p r := by
  cases b <;> simp [priceBetter] at h1 h2 ⊢
  · exact lt_trans h1 h2
  · exact lt_trans h2 h1

theorem priceBetter_ne {b : Bool} {p q : ℚ} (h : priceBetter b p q) : p ≠ q := by
  cases b <;> simp [priceBetter] at h
  · exact ne_of_lt h
  · exact ne_of_gt h

theorem valid_pairwise_ne {q : queue} (hv : ValidQueue q) :
    List.Pairwise (fun u v : priceUnit => u.price ≠ v.price) q.depthList := by
  obtain ⟨hchain, _⟩ := hv
  haveI : IsTrans priceUnit (fun u v => priceBetter q.isBid u.price v.price) :=
    ⟨fun _ _ _ h1 h2 => priceBetter_trans h1 h2⟩
  exact (List.chain'_iff_pairwise.mp hchain).imp (fun h => priceBetter_ne h)

theorem removeLevels_orders (price : ℚ) (id : String) : ∀ dl : List priceUnit,
    List.Pairwise (fun u v : priceUnit => u.price ≠ v.price) dl →
    (∀ u ∈ dl, ∀ x ∈ u.list, x.id = id → u.price = price) →
    (removeLevels price id dl).flatMap priceUnit.list =
      (dl.flatMap priceUnit.list).filter (fun x => x.id ≠ id) := by
  intro dl
  induction dl with
  | nil => intro _ _; simp [removeLevels]
  | cons u rest ih =>
    intro hpw hids
    by_cases hup : u.price = price
    · have hrest : ∀ v ∈ rest, ∀ x ∈ v.list, ¬ x.id = id := by
        intro v hvr x hx hxid
        have hvp : v.price = price := hids v (List.mem_cons_of_mem _ hvr) x hx hxid
        have hne : u.price ≠ v.price := (List.pairwise_cons.mp hpw).1 v hvr
        exact hne (by rw [hup, hvp])
      have hfr : (rest.flatMap priceUnit.list).filter (fun x => x.id ≠ id) =
          rest.flatMap priceUnit.list := by
        rw [List.filter_eq_self]
        intro x hx
        simp only [List.mem_flatMap] at hx
        obtain ⟨v, hv, hxv⟩ := hx
        simpa using hrest v hv x hxv
      rw [List.flatMap_cons, List.filter_append, hfr]
      simp only [removeLevels]
      rw [if_pos hup]
      by_cases hl : u.list.filter (fun o => o.id ≠ id) = []
      · rw [if_pos hl, hl, List.nil_append]
      · rw [if_neg hl, List.flatMap_cons]
    · have hfu : u.list.filter (fun x => x.id ≠ id) = u.list := by
        rw [List.filter_eq_self]
        intro x hx
        simp only [ne_eq, decide_not, Bool.not_eq_eq_eq_not, Bool.not_true,
          decide_eq_false_iff_not]
        intro hxid
        exact hup (hids u (List.mem_cons_self _ _) x hx hxid)
      rw [List.flatMap_cons, List.filter_append, hfu]
      simp only [removeLevels]
      rw [if_neg hup, List.flatMap_cons,
        ih hpw.of_cons (fun v hv => hids v (List.mem_cons_of_mem _ hv))]

theorem removeLevels_no_empty (price : ℚ) (id : String) : ∀ dl : List priceUnit,
    (∀ u ∈ dl, u.list ≠ []) → ∀ u ∈ removeLevels price id dl, u.list ≠ [] := by
  intro dl
  induction dl with
  | nil => intro _ u hu; simp [removeLevels] at hu
  | cons v rest ih =>
    intro hne u hu
    by_cases hvp : v.price = price
    · by_cases hl : v.list.filter (fun o => o.id ≠ id) = []
      · simp only [removeLevels, hvp, if_true, hl] at hu
        exact hne u (List.mem_cons_of_mem _ (by simpa using hu))
      · simp only [removeLevels, hvp, if_true, hl, if_neg] at hu
        rcases List.mem_cons.mp (by simpa using hu) with rfl | hu'
        · simpa using hl
        · exact hne u (List.mem_cons_of_mem _ hu')
    · simp only [removeLevels, hvp, if_false] at hu
      rcases List.mem_cons.mp (by simpa [hvp] using hu) with rfl | hu'
      · exact hne u (List.mem_cons_self _ _)
      · exact ih (fun w hw => hne w (List.mem_cons_of_mem _ hw)) u hu'

theorem find?_filter_ne (l : List Order) (id : String) :
    (l.filter (fun x => x.id ≠ id)).find? (fun x => x.id = id) = none := by
  rw [List.find?_eq_none]
  intro x hx
  have := (List.mem_filter.mp hx).2
  simpa using this

theorem removeOrder_orders {q : queue} {id : String} {o : Order} (hv : ValidQueue q)
    (hnd : (q.orders.map Order.id).Nodup) (hf : q.order id = some o) :
    (q.removeOrder o.price id).orders = q.orders.filter (fun x => x.id ≠ id) := by
  have ho_mem : o ∈ q.orders := List.mem_of_find?_eq_some hf
  have ho_id : o.id = id := by simpa using List.find?_some hf
  have hids : ∀ u ∈ q.depthList, ∀ x ∈ u.list, x.id = id → u.price = o.price := by
    intro u hu x hx hxid
    have hx_mem : x ∈ q.orders := by
      simp only [queue.orders, List.mem_flatMap]
      exact ⟨u, hu, hx⟩
    have hxo : x = o :=
      List.inj_on_of_nodup_map hnd hx_mem ho_mem (by rw [hxid, ho_id])
    have hxp : x.price = u.price := (hv.2 u hu).2 x hx
    rw [← hxp, hxo]
  simpa [queue.orders, queue.removeOrder] using
    removeLevels_orders o.price id q.depthList (valid_pairwise_ne hv) hids

theorem order_eq_none_of_no_id {q : queue} {id : String}
    (h : ∀ x ∈ q.orders, x.id ≠ id) : q.order id = none := by
  rw [queue.order, List.find?_eq_none]
  intro x hx
  simpa using h x hx

theorem filter_eq_self_of_no_id {l : List Order} {id : String}
    (h : ∀ x ∈ l, x.id ≠ id) : l.filter (fun x => x.id ≠ id) = l := by
  rw [List.filter_eq_self]
  intro x hx
  simpa using h x hx

/-- C9: for a well-formed book, `cancelOrder id` removes exactly the
resting order with that id — on whichever side it rests — leaving every
other order in place (so each side's surviving orders are the original
ones filtered by id, and since `totalSize` is the sum over a level's
list, the level's total drops by the cancelled size); no level is left
empty; an id resting on neither side is a silent no-op; and cancelling
twice is the same as cancelling once. -/
theorem cancelOrder_removes_idempotent (bk : OrderBook) (id : String)
    (hv : ValidBook bk) :
    (bk.cancelOrder id).askQueue.orders = bk.askQueue.orders.filter (fun x => x.id ≠ id) ∧
    (bk.cancelOrder id).bidQueue.orders = bk.bidQueue.orders.filter (fun x => x.id ≠ id) ∧
    (bk.askQueue.order id = none → bk.bidQueue.order id = none → bk.cancelOrder id = bk) ∧
    (∀ u ∈ (bk.cancelOrder id).askQueue.depthList, u.list ≠ []) ∧
    (∀ u ∈ (bk.cancelOrder id).bidQueue.depthList, u.list ≠ []) ∧
    (bk.cancelOrder id).cancelOrder id = bk.cancelOrder id := by
  obtain ⟨hvb, hva, _, _, hnd⟩ := hv
  rw [List.map_append, List.nodup_append] at hnd
  obtain ⟨hndb, hnda, hdisj⟩ := hnd
  cases hfa : bk.askQueue.order id with
  | some o =>
    have ho_mem : o ∈ bk.askQueue.orders := List.mem_of_find?_eq_some hfa
    have ho_id : o.id = id := by simpa using List.find?_some hfa
    have hbid_no : ∀ x ∈ bk.bidQueue.orders, x.id ≠ id := by
      intro x hx hxid
      have h1 : id ∈ bk.bidQueue.orders.map Order.id := by
        rw [← hxid]
        exact List.mem_map_of_mem Order.id hx
      have h2 : id ∈ bk.askQueue.orders.map Order.id := by
        rw [← ho_id]
        exact List.mem_map_of_mem Order.id ho_mem
      exact hdisj h1 h2
    have hco : bk.cancelOrder id = { bk with askQueue := bk.askQueue.removeOrder o.price id } := by
      simp [OrderBook.cancelOrder, hfa]
    have hask' : (bk.askQueue.removeOrder o.price id).orders =
        bk.askQueue.orders.filter (fun x => x.id ≠ id) :=
      removeOrder_orders hva hnda hfa
    refine ⟨?_, ?_, ?_, ?_, ?_, ?_⟩
    · rw [hco]
      exact hask'
    · rw [hco]
      exact (filter_eq_self_of_no_id hbid_no).symm
    · intro h _
      exact Option.noConfusion h
    · rw [hco]
      exact removeLevels_no_empty o.price id bk.askQueue.depthList
        (fun u hu => (hva.2 u hu).1)
    · rw [hco]
      exact fun u hu => (hvb.2 u hu).1
    · rw [hco]
      have hfa' : (bk.askQueue.removeOrder o.price id).order id = none := by
        rw [queue.order, hask']
        exact find?_filter_ne _ _
      have hfb' : bk.bidQueue.order id = none := order_eq_none_of_no_id hbid_no
      simp [OrderBook.cancelOrder, hfa', hfb']
  | none =>
    have hask_no : ∀ x ∈ bk.askQueue.orders, x.id ≠ id := by
      intro x hx
      have hfa2 := hfa
      rw [queue.order, List.find?_eq_none] at hfa2
      simpa using hfa2 x hx
    cases hfb : bk.bidQueue.order id with
    | some o =>
      have ho_mem : o ∈ bk.bidQueue.orders := List.mem_of_find?_eq_some hfb
      have ho_id : o.id = id := by simpa using List.find?_some hfb
      have hco : bk.cancelOrder id =
          { bk with bidQueue := bk.bidQueue.removeOrder o.price id } := by
        simp [OrderBook.cancelOrder, hfa, hfb]
      have hbid' : (bk.bidQueue.removeOrder o.price id).orders =
          bk.bidQueue.orders.filter (fun x => x.id ≠ id) :=
        removeOrder_orders hvb hndb hfb
      refine ⟨?_, ?_, ?_, ?_, ?_, ?_⟩
      · rw [hco]
        exact (filter_eq_self_of_no_id hask_no).symm
      · rw [hco]
        exact hbid'
      · intro _ h
        exact Option.noConfusion h
      · rw [hco]
        exact fun u hu => (hva.2 u hu).1
      · rw [hco]
        exact removeLevels_no_empty o.price id bk.bidQueue.depthList
          (fun u hu => (hvb.2 u hu).1)
      · rw [hco]
        have hfb' : (bk.bidQueue.removeOrder o.price id).order id = none := by
          rw [queue.order, hbid']
          exact find?_filter_ne _ _
        have hfa' : bk.askQueue.order id = none := order_eq_none_of_no_id hask_no
        simp [OrderBook.cancelOrder, hfa', hfb']
    | none =>
      have hbid_no : ∀ x ∈ bk.bidQueue.orders, x.id ≠ id := by
        intro x hx
        have hfb2 := hfb
        rw [queue.order, List.find?_eq_none] at hfb2
        simpa using hfb2 x hx
      have hco : bk.cancelOrder id = bk := by
        simp [OrderBook.cancelOrder, hfa, hfb]
      refine ⟨?_, ?_, ?_, ?_, ?_, ?_⟩
      · rw [hco]
        exact (filter_eq_self_of_no_id hask_no).symm
      · rw [hco]
        exact (filter_eq_self_of_no_id hbid_no).symm
      · intro _ _
        exact hco
      · rw [hco]
        exact fun u hu => (hva.2 u hu).1
      · rw [hco]
        exact fun u hu => (hvb.2 u hu).1
      · rw [hco, hco]

/-- A resting bid and a resting ask with distinct ids, for exercising the
cancel path. -/
def exCancelBuy : Order := ⟨"B9", "mkt", Buy, 99, 1, Limit, 5⟩

def exCancelSell : Order := ⟨"S9", "mkt", Sell, 101, 2, Limit, 6⟩

def exCancelBook : OrderBook :=
  ⟨⟨true, [⟨99, [exCancelBuy]⟩]⟩, ⟨false, [⟨101, [exCancelSell]⟩]⟩⟩

theorem validBook_exCancelBook : ValidBook exCancelBook := by
  refine ⟨⟨?_, ?_⟩, ⟨?_, ?_⟩, rfl, rfl, ?_⟩
  · simp [exCancelBook]
  · intro u hu
    simp only [exCancelBook, List.mem_singleton] at hu
    subst hu
    refine ⟨by simp, ?_⟩
    intro o ho
    simp only [List.mem_singleton] at ho
    subst ho
    norm_num [exCancelBuy]
  · simp [exCancelBook]
  · intro u hu
    simp only [exCancelBook, List.mem_singleton] at hu
    subst hu
    refine ⟨by simp, ?_⟩
    intro o ho
    simp only [List.mem_singleton] at ho
    subst ho
    norm_num [exCancelSell]
  · simp +decide [exCancelBook, queue.orders, exCancelBuy, exCancelSell]

/-- Witness for C9: the cancel theorem applied to a concrete two-sided
book, cancelling the resting ask. -/
theorem cancelOrder_removes_idempotent_witness :
    (exCancelBook.cancelOrder "S9").askQueue.orders =
        exCancelBook.askQueue.orders.filter (fun x => x.id ≠ "S9") ∧
    (exCancelBook.cancelOrder "S9").bidQueue.orders =
        exCancelBook.bidQueue.orders.filter (fun x => x.id ≠ "S9") ∧
    (exCancelBook.askQueue.order "S9" = none → exCancelBook.bidQueue.order "S9" = none →
      exCancelBook.cancelOrder "S9" = exCancelBook) ∧
    (∀ u ∈ (exCancelBook.cancelOrder "S9").askQueue.depthList, u.list ≠ []) ∧
    (∀ u ∈ (exCancelBook.cancelOrder "S9").bidQueue.depthList, u.list ≠ []) ∧
    (exCancelBook.cancelOrder "S9").cancelOrder "S9" = exCancelBook.cancelOrder "S9" :=
  cancelOrder_removes_idempotent exCancelBook "S9" validBook_exCancelBook

theorem string_length_eq_zero_iff (s : String) : s.length = 0 ↔ s = "" := by
  constructor
  · intro h
    cases s with
    | mk data =>
      cases data with
      | nil => rfl
      | cons c cs => simp [String.length] at h
  · intro h
    subst h
    rfl

/-- C7: the engine's `add_order` validation (modelled from the spec, the
router not being among the provided sources, composed with the source's
`OrderBook.AddOrder` check) rejects with `InvalidParam` — enqueuing
nothing — exactly the orders with an empty id, an empty type, or a
non-positive size, and enqueues exactly the rest. -/
theorem engine_addOrder_invalidParam_iff (o : Order) :
    (Engine.addOrder o = SubmitResult.invalidParam ↔
      o.id = "" ∨ o.type = "" ∨ o.size ≤ 0) ∧
    (Engine.addOrder o = SubmitResult.enqueued ↔
      ¬(o.id = "" ∨ o.type = "" ∨ o.size ≤ 0)) := by
  by_cases hc : o.id.length = 0 ∨ o.type.length = 0 ∨ o.size ≤ 0
  · have hc' : o.id = "" ∨ o.type = "" ∨ o.size ≤ 0 := by
      simpa [string_length_eq_zero_iff] using hc
    simp [Engine.addOrder, hc, hc']
  · have hc' : ¬(o.id = "" ∨ o.type = "" ∨ o.size ≤ 0) := by
      simpa [string_length_eq_zero_iff] using hc
    push_neg at hc
    simp [Engine.addOrder, OrderBook.AddOrderSubmit, hc', hc.1, hc.2.1, hc.2.2]

/-- C10: `OrderBook.CancelOrder` with an empty id returns success
immediately, enqueuing no cancel command — so it cannot time out and
leaves the book untouched. -/
theorem cancelOrder_empty_id_ok :
    OrderBook.CancelOrderSubmit "" = SubmitResult.okNoEnqueue := rfl

/-- Asks (100, 1) and (101, 2), spec scenario S5. -/
def exFokAskA : Order := ⟨"f1", "mkt", Sell, 100, 1, Limit, 11⟩

def exFokAskB : Order := ⟨"f2", "mkt", Sell, 101, 2, Limit, 12⟩

def exS5Book : OrderBook :=
  ⟨NewBuyerQueue, ⟨false, [⟨100, [exFokAskA]⟩, ⟨101, [exFokAskB]⟩]⟩⟩

/-- FOK Buy at 101 with size 5, spec scenario S5. -/
def exFokBuy : Order := ⟨"F1", "mkt", Buy, 101, 5, FOK, 13⟩

/-- C2 (code bug): the S5 FOK Buy is infeasible (3 < 5 available), and
the source emits a single `is_cancel` event — but carrying the *mutated*
dry-run remainder 2, not the full original size 5; the book itself is
left unchanged. -/
theorem fok_infeasible_emits_mutated_size :
    exS5Book.addOrder exFokBuy = Except.ok ([cancelTrade exFokBuy 2], exS5Book) ∧
    (cancelTrade exFokBuy 2).isCancel = true ∧
    (cancelTrade exFokBuy 2).size = 2 ∧ exFokBuy.size = 5 ∧ (2 : ℚ) ≠ 5 := by
  refine ⟨?_, rfl, rfl, rfl, by norm_num⟩
  norm_num +decide [Except.map, OrderBook.addOrder, OrderBook.handleOrder, handleOrderOn,
    fokScan, exS5Book, exFokBuy, exFokAskA, exFokAskB, Limit, FOK, IOC, PostOnly,
    CancelType, Market, Buy, Sell, priceUnit.totalSize, NewBuyerQueue]

/-- C6 (code bug): volume conservation fails on the S5 FOK submission —
nothing is rested, the only emitted event has size 2, yet the submitted
size was 5. -/
theorem fok_violates_conservation :
    exS5Book.addOrder exFokBuy = Except.ok ([cancelTrade exFokBuy 2], exS5Book) ∧
    exS5Book.bidQueue.sizeSum + tradeSizeSum [cancelTrade exFokBuy 2] = 2 ∧
    exFokBuy.size = 5 ∧ (2 : ℚ) ≠ 5 := by
  refine ⟨?_, ?_, rfl, by norm_num⟩
  · norm_num +decide [Except.map, OrderBook.addOrder, OrderBook.handleOrder, handleOrderOn,
      fokScan, exS5Book, exFokBuy, exFokAskA, exFokAskB, Limit, FOK, IOC, PostOnly,
      CancelType, Market, Buy, Sell, priceUnit.totalSize, NewBuyerQueue]
  · norm_num [exS5Book, NewBuyerQueue, queue.sizeSum, queue.orders, tradeSizeSum,
      cancelTrade, exFokBuy]

/-- An order whose type is the `Cancel` member of the order-type enum. -/
def exCancelTyped : Order := ⟨"C1", "mkt", Buy, 1, 1, CancelType, 7⟩

/-- C5 (code bug): an order of type Cancel submitted through the book's
add path is dispatched into the matcher (`handleOrder`), where on an
empty book the type `switch` covers no case and the code dereferences the
nil popped head — a fault — instead of being routed away from matching. -/
theorem cancel_type_reaches_matcher_faults :
    emptyBook.addOrder exCancelTyped = Except.error Fault.nilHead := by
  norm_num +decide [Except.map, OrderBook.addOrder, OrderBook.handleOrder, handleOrderOn,
    matchLoop, emptyBook, exCancelTyped, Limit, FOK, IOC, PostOnly, CancelType, Market,
    Buy, Sell, queue.popHeadOrder, queue.orderCount, queue.orders, NewBuyerQueue,
    NewSellerQueue]

/-- C8 (code bug): the fill trade emitted for the S3 cross carries Go
zero values in every header field — empty market id, taker side 0, empty
taker type, zero user ids — although the incoming and resting orders have
non-zero values for all of them. -/
theorem fill_trade_header_left_zero :
    (⟨NewBuyerQueue, exS3Asks⟩ : OrderBook).addOrder exLimitBuy =
      Except.ok ([fillTrade "B1" "S1" 100 2],
        ⟨⟨true, [⟨100, [{exLimitBuy with size := 3}]⟩]⟩, ⟨false, []⟩⟩) ∧
    (fillTrade "B1" "S1" 100 2).marketId = "" ∧
    (fillTrade "B1" "S1" 100 2).takerOrderSide = 0 ∧
    (fillTrade "B1" "S1" 100 2).takerOrderType = "" ∧
    (fillTrade "B1" "S1" 100 2).takerUserId = 0 ∧
    (fillTrade "B1" "S1" 100 2).makerUserId = 0 ∧
    exLimitBuy.marketId = "mkt" ∧ exLimitBuy.side = Buy ∧ exLimitBuy.type = Limit ∧
    exLimitBuy.userId = 2 ∧ exRestingSell.userId = 1 ∧
    ("mkt" : String) ≠ "" ∧ Buy ≠ (0 : Side) ∧ Limit ≠ ("" : OrderType) ∧
    (2 : Int) ≠ 0 ∧ (1 : Int) ≠ 0 := by
  refine ⟨?_, rfl, rfl, rfl, rfl, rfl, rfl, rfl, rfl, rfl, rfl,
    by decide, by decide, by decide, by decide, by decide⟩
  norm_num +decide [Except.map, OrderBook.addOrder, OrderBook.handleOrder, handleOrderOn,
    matchLoop, exS3Asks, exLimitBuy, exRestingSell, Limit, FOK, IOC, PostOnly, CancelType,
    Market, Buy, Sell, queue.popHeadOrder, queue.orderCount, queue.orders,
    queue.insertOrder, insertLevels, NewBuyerQueue, fillTrade]

end Bixor
